import Mathlib

/-!
Shallow embedding of the ghost-content manager (`src/ghost-content/index.js`,
the durable, database-backed variant) of the repository.

Modelling conventions:
* The two relational tables `ghost_content` and `ghost_revisions` are lists of
  rows; SQL `select ... where` becomes `List.filter`, knex's `.get(0)` becomes
  `List.head?`, and `insert` appends a row.
* Database-generated values are made explicit in the state: fresh row ids come
  from `nextContentId` / `nextRevisionId` counters, and the `created_on`
  timestamp default comes from a logical clock `now`.  The `deleted` column's
  default value `false` for fresh inserts comes from the database schema,
  which is outside the sources; the spec's data model ("Created on first
  write; ... soft-deleted on explicit deletion") fixes it to `false`.
* `normalizeFolder` lives in `./util`, which is not among the sources; the
  spec describes it as a pure key-derivation function, so every operation here
  takes the already-normalized folder name (the claims quantify over all
  folder names, so this loses no generality).
* Filesystem interaction is passed in as data: the known-revisions manifest
  read is an `FsRead` (success with content, ENOENT, or another I/O error)
  and the glob result is a list of (file name, file content) pairs.
* Promise rejection vs. resolution of an operation is an `Except GhostError`.
  A failure injected into the content-update/revision-append transaction is
  modelled by the `txFails` flag: when it is `true` the transaction's work is
  rolled back and the source's `.catch` handler runs (it logs and does not
  rethrow, so the operation still resolves successfully).
* `uuid.v4()` tokens are passed in as the `tok` argument.
* The SQL `like` suffix filter of `directoryListing` is modelled as
  `String.endsWith`, which matches the source for filter strings without the
  SQL wildcards `%` and `_` (the source always interpolates the pattern after
  a leading `%`).
-/

/-- Row of the `ghost_content` table: one (folder, file) content entry. -/
structure ContentRow where
  id : Nat
  folder : String
  file : String
  content : Option String
  deleted : Bool
deriving Repr, DecidableEq

/-- Row of the `ghost_revisions` table.  `content_id` is `none` when the
revision was inserted with an `undefined` id (SQL `NULL`). -/
structure RevisionRow where
  id : Nat
  content_id : Option Nat
  revision : String
  created_on : Nat
  created_by : String
deriving Repr, DecidableEq

/-- One element of the result of `getPendingRevisions`: the columns selected
by the join of `ghost_revisions` with `ghost_content`. -/
structure PendingRev where
  file : String
  id : Nat
  revision : String
  created_on : Nat
  created_by : String
deriving Repr, DecidableEq

/-- Errors surfaced by the operations (promise rejections in the source). -/
inductive GhostError where
  /-- `deleteFile` threw its "couldn't find it in folder" error. -/
  | notFound
  /-- Bluebird `.get('content')` applied to `undefined` (no row matched). -/
  | typeError
  /-- The known-revisions manifest read failed with an error other than
  ENOENT. -/
  | manifestReadFailure
deriving Repr, DecidableEq

instance {ε α : Type} [DecidableEq ε] [DecidableEq α] :
    DecidableEq (Except ε α) := fun a b =>
  match a, b with
  | Except.error e₁, Except.error e₂ =>
      if h : e₁ = e₂ then isTrue (by rw [h])
      else isFalse (by intro hh; cases hh; exact h rfl)
  | Except.error _, Except.ok _ => isFalse (by intro hh; cases hh)
  | Except.ok _, Except.error _ => isFalse (by intro hh; cases hh)
  | Except.ok a₁, Except.ok a₂ =>
      if h : a₁ = a₂ then isTrue (by rw [h])
      else isFalse (by intro hh; cases hh; exact h rfl)

/-- Result of reading the known-revisions manifest file. -/
inductive FsRead where
  | ok (content : String)
  | enoent
  | ioErr
deriving Repr, DecidableEq

/-- The whole state of the ghost-content manager: both tables plus the
process-local `pendingRevisionsByFolder` map and `trackedFolders` list, the
id counters and the logical clock. -/
structure GhostState where
  ghost_content : List ContentRow
  ghost_revisions : List RevisionRow
  pendingByFolder : List (String × List PendingRev)
  trackedFolders : List String
  nextContentId : Nat
  nextRevisionId : Nat
  now : Nat
deriving Repr, DecidableEq

/-- Look a key up in an association list (JS object property read). -/
def lookupAssoc (m : List (String × List PendingRev)) (k : String) :
    Option (List PendingRev) :=
  (m.find? (fun p => p.1 == k)).map (fun p => p.2)

/-- Set a key in an association list (JS object property write). -/
def setAssoc (m : List (String × List PendingRev)) (k : String)
    (v : List PendingRev) : List (String × List PendingRev) :=
  if m.any (fun p => p.1 == k) then
    m.map (fun p => if p.1 == k then (k, v) else p)
  else
    m ++ [(k, v)]

/-- The `where {folder, file}` select of the source's `upsert` (and of
`readFile` / `recordRevision`), with knex's `.get(0)` as `head?`. -/
def findRow (s : GhostState) (folder file : String) : Option ContentRow :=
  (s.ghost_content.filter (fun c => c.folder == folder && c.file == file)).head?

/-- The source's `upsert` helper applied to the `ghost_content` table with
`where = {folder, file}` and `data = {content}`: select the first row by key;
if present, update that row's `content` by id, else insert a fresh row. -/
def contentUpsert (s : GhostState) (folder file : String)
    (newContent : Option String) : GhostState :=
  match findRow s folder file with
  | some row =>
      { s with ghost_content :=
          s.ghost_content.map (fun c =>
            if c.id == row.id then { c with content := newContent } else c) }
  | none =>
      { s with
          ghost_content := s.ghost_content ++
            [{ id := s.nextContentId, folder := folder, file := file,
               content := newContent, deleted := false }],
          nextContentId := s.nextContentId + 1 }

/-- Insert a row into `ghost_revisions` with `created_by = 'admin'`, database
defaults for `id` and `created_on`, and the given `content_id`. -/
def insertRevision (s : GhostState) (cid : Option Nat) (tok : String) :
    GhostState :=
  { s with
      ghost_revisions := s.ghost_revisions ++
        [{ id := s.nextRevisionId, content_id := cid, revision := tok,
           created_on := s.now, created_by := "admin" }],
      nextRevisionId := s.nextRevisionId + 1,
      now := s.now + 1 }

/-- The column tuple produced by the join in `getPendingRevisions`. -/
def mkPendingRev (c : ContentRow) (r : RevisionRow) : PendingRev :=
  { file := c.file, id := r.id, revision := r.revision,
    created_on := r.created_on, created_by := r.created_by }

/-- Insert one element into a list sorted by `created_on` descending. -/
def insertDesc (r : PendingRev) : List PendingRev → List PendingRev
  | [] => [r]
  | x :: xs =>
      if r.created_on ≤ x.created_on then x :: insertDesc r xs
      else r :: x :: xs

/-- The `order by created_on desc` of `getPendingRevisions`. -/
def sortByCreatedOnDesc (l : List PendingRev) : List PendingRev :=
  l.foldr insertDesc []

/-- The source's `getPendingRevisions`: join `ghost_revisions` with
`ghost_content` on `ghost_content.id = ghost_revisions.content_id`, keep the
rows of the given folder, select the joined columns, order by `created_on`
descending. -/
def getPendingRevisions (s : GhostState) (folder : String) : List PendingRev :=
  sortByCreatedOnDesc
    (s.ghost_revisions.flatMap (fun r =>
      (s.ghost_content.filter (fun c =>
        r.content_id == some c.id && c.folder == folder)).map
        (fun c => mkPendingRev c r)))

/-- The source's `updatePendingForFolder`: refresh the in-memory pending map
for one folder from the database. -/
def updatePendingForFolder (s : GhostState) (folder : String) : GhostState :=
  { s with pendingByFolder :=
      setAssoc s.pendingByFolder folder (getPendingRevisions s folder) }

/-- JS `String.prototype.trim` (strip whitespace from both ends), written
over the character list so that it evaluates by kernel reduction (the
built-in `String.trim` is defined by well-founded recursion and does not). -/
def trimString (s : String) : String :=
  String.mk (((s.data.dropWhile Char.isWhitespace).reverse.dropWhile
    Char.isWhitespace).reverse)

/-- JS `String.prototype.split(sep)` for a single-character separator,
over the character list.  On the empty list it yields one empty chunk,
matching JS `''.split(sep) = ['']`. -/
def splitOnChar (sep : Char) : List Char → List (List Char)
  | [] => [[]]
  | c :: rest =>
      match splitOnChar sep rest with
      | [] => [[c]]
      | h :: t => if c = sep then [] :: h :: t else (c :: h) :: t

/-- The `content.split('\n')` of the manifest parser. -/
def linesOf (s : String) : List String :=
  (splitOnChar (Char.ofNat 10) s.data).map String.mk

/-- The `s.startsWith('#')` comment test: first character is `#`. -/
def startsWithHash (s : String) : Bool :=
  match s.data with
  | [] => false
  | c :: _ => c == '#'

/-- Parsing of the known-revisions manifest content in `addRootFolder`:
trim the whole content, split on newlines, trim each line, drop blank lines
and `#` comments.  (The source folds the result into a lookup object; here
the token list stands for that set, queried with `List.contains`.) -/
def parseManifest (content : String) : List String :=
  ((linesOf (trimString content)).map trimString).filter
    (fun s => !(s == "") && !(startsWithHash s))

/-- Known-revision tokens obtained from a manifest read, for the two reads
that do not abort registration (ENOENT is caught and replaced by `''`). -/
def manifestTokens : FsRead → List String
  | FsRead.ok c => parseManifest c
  | _ => []

/-- Body of `addRootFolder` after the manifest parse: partition the folder's
joined revision entries into known (delete them) and remaining; if any
remain, record them as the folder's pending set and leave `ghost_content`
alone, otherwise resync `ghost_content` from the filesystem glob result
(upsert every matched file's raw content, then hard-delete the folder's rows
whose file is not among the matches). -/
def addRootFolderCore (s : GhostState) (folder : String) (known : List String)
    (fsFiles : List (String × String)) : GhostState × Except GhostError Unit :=
  let dbRevisions := getPendingRevisions s folder
  let revisionsToDelete := dbRevisions.filter (fun r => known.contains r.revision)
  let remaining := dbRevisions.filter (fun r => !known.contains r.revision)
  let s1 :=
    if revisionsToDelete.isEmpty then s
    else
      { s with ghost_revisions :=
          s.ghost_revisions.filter (fun r =>
            !(revisionsToDelete.map (fun d => d.id)).contains r.id) }
  if remaining.isEmpty then
    let names := fsFiles.map (fun p => p.1)
    let s2 := fsFiles.foldl
      (fun acc p => contentUpsert acc folder p.1 (some p.2)) s1
    let s3 := { s2 with ghost_content :=
        s2.ghost_content.filter (fun c =>
          !(c.folder == folder && !names.contains c.file)) }
    (s3, Except.ok ())
  else
    ({ s1 with pendingByFolder := setAssoc s1.pendingByFolder folder remaining },
     Except.ok ())

/-- The source's `addRootFolder`: push the folder onto `trackedFolders`, read
the known-revisions manifest (ENOENT becomes the empty content, any other
read error aborts the registration), then reconcile. -/
def addRootFolder (s : GhostState) (folder : String) (manifest : FsRead)
    (fsFiles : List (String × String)) : GhostState × Except GhostError Unit :=
  let s0 := { s with trackedFolders := s.trackedFolders ++ [folder] }
  match manifest with
  | FsRead.ioErr => (s0, Except.error GhostError.manifestReadFailure)
  | mf => addRootFolderCore s0 folder (manifestTokens mf) fsFiles

/-- The source's `recordRevision`.  It reads `{id, content}` for the key (an
absent row destructures to `undefined` fields), no-ops when the stored
content is identical to the new content, and otherwise runs a transaction:
upsert the content, then insert a revision row whose `content_id` is the id
read BEFORE the upsert.  On an injected transaction failure the `.catch`
handler logs, rolls back, and swallows the error, so the call still resolves
successfully; on success the pending map for the folder is refreshed. -/
def recordRevision (s : GhostState) (folder file newContent tok : String)
    (txFails : Bool) : GhostState × Except GhostError Unit :=
  let existing := findRow s folder file
  if existing.map (fun c => c.content) = some (some newContent) then
    (s, Except.ok ())
  else
    let storedId := existing.map (fun c => c.id)
    let s1 := contentUpsert s folder file (some newContent)
    let s2 := insertRevision s1 storedId tok
    if txFails then (s, Except.ok ())
    else (updatePendingForFolder s2 folder, Except.ok ())

/-- The source's `readFile`: select `content` where `{folder, file}`; on an
empty result bluebird's `.get('content')` rejects with a TypeError, otherwise
the first row's `content` is returned (it is `null` for a tombstone — there
is no `deleted` filter). -/
def readFile (s : GhostState) (folder file : String) :
    Except GhostError (Option String) :=
  match findRow s folder file with
  | none => Except.error GhostError.typeError
  | some row => Except.ok row.content

/-- The `where {folder, file, deleted: false}` select of `deleteFile`. -/
def findLiveRow (s : GhostState) (folder file : String) : Option ContentRow :=
  (s.ghost_content.filter (fun c =>
    c.folder == folder && c.file == file && !c.deleted)).head?

/-- The source's `deleteFile`: look up a live (non-deleted) row by key; if
none, throw; otherwise run a transaction that tombstones the row
(`deleted := true, content := null`) and inserts a revision row pointing at
it.  Failure handling is the same logged-and-swallowed pattern as
`recordRevision`. -/
def deleteFile (s : GhostState) (folder file tok : String) (txFails : Bool) :
    GhostState × Except GhostError Unit :=
  match findLiveRow s folder file with
  | none => (s, Except.error GhostError.notFound)
  | some row =>
      let s1 := { s with ghost_content :=
          s.ghost_content.map (fun c =>
            if c.id == row.id then { c with deleted := true, content := none }
            else c) }
      let s2 := insertRevision s1 (some row.id) tok
      if txFails then (s, Except.ok ())
      else (updatePendingForFolder s2 folder, Except.ok ())

/-- The source's `directoryListing`: file names of the folder's non-deleted
rows whose name ends with the filter. -/
def directoryListing (s : GhostState) (folder suffix : String) : List String :=
  ((s.ghost_content.filter (fun c =>
    c.folder == folder && !c.deleted && c.file.endsWith suffix)).map
    (fun c => c.file))

/-- The source's `getPending`: the in-memory pending map as-is. -/
def getPending (s : GhostState) : List (String × List PendingRev) :=
  s.pendingByFolder

/-- Well-formedness of a state: row ids are distinct and below the counters,
`(folder, file)` is a key of `ghost_content`, and every pending entry cached
in the map was produced by an already-counted revision row. -/
def WellFormed (s : GhostState) : Prop :=
  (s.ghost_content.map (fun c => c.id)).Nodup ∧
  (∀ c ∈ s.ghost_content, c.id < s.nextContentId) ∧
  (s.ghost_content.map (fun c => (c.folder, c.file))).Nodup ∧
  (∀ r ∈ s.ghost_revisions, r.id < s.nextRevisionId) ∧
  (∀ p ∈ s.pendingByFolder, ∀ pr ∈ p.2, pr.id < s.nextRevisionId)

instance (s : GhostState) : Decidable (WellFormed s) := by
  unfold WellFormed
  infer_instance

/-! Basic lemmas about row lookup and key uniqueness. -/

theorem findRow_eq_find? (s : GhostState) (folder file : String) :
    findRow s folder file =
      s.ghost_content.find? (fun c => c.folder == folder && c.file == file) := by
  simp [findRow]

theorem findRow_eq_some_mem {s : GhostState} {folder file : String}
    {c : ContentRow} (h : findRow s folder file = some c) :
    c ∈ s.ghost_content ∧ c.folder = folder ∧ c.file = file := by
  rw [findRow_eq_find?] at h
  have hmem := List.mem_of_find?_eq_some h
  have hp := List.find?_some h
  simp only [Bool.and_eq_true, beq_iff_eq] at hp
  exact ⟨hmem, hp.1, hp.2⟩

theorem findRow_eq_none_iff {s : GhostState} {folder file : String} :
    findRow s folder file = none ↔
      ∀ c ∈ s.ghost_content, ¬(c.folder = folder ∧ c.file = file) := by
  rw [findRow_eq_find?, List.find?_eq_none]
  constructor <;> intro h c hc <;> have := h c hc <;> simp_all

theorem findRow_isSome_of_mem {s : GhostState} {folder file : String}
    {c : ContentRow} (hc : c ∈ s.ghost_content) (hf : c.folder = folder)
    (hfi : c.file = file) : ∃ d, findRow s folder file = some d := by
  rw [findRow_eq_find?]
  have hsome : (s.ghost_content.find?
      (fun c => c.folder == folder && c.file == file)).isSome := by
    rw [List.find?_isSome]
    exact ⟨c, hc, by simp [hf, hfi]⟩
  exact Option.isSome_iff_exists.mp hsome

theorem key_unique {s : GhostState} (hwf : WellFormed s) {c₁ c₂ : ContentRow}
    (h₁ : c₁ ∈ s.ghost_content) (h₂ : c₂ ∈ s.ghost_content)
    (hf : c₁.folder = c₂.folder) (hfi : c₁.file = c₂.file) : c₁ = c₂ :=
  List.inj_on_of_nodup_map hwf.2.2.1 h₁ h₂ (by simp [hf, hfi])

theorem id_unique {s : GhostState} (hwf : WellFormed s) {c₁ c₂ : ContentRow}
    (h₁ : c₁ ∈ s.ghost_content) (h₂ : c₂ ∈ s.ghost_content)
    (hid : c₁.id = c₂.id) : c₁ = c₂ :=
  List.inj_on_of_nodup_map hwf.1 h₁ h₂ hid

/-! Lemmas about the set/lookup pair on the pending map. -/

theorem find?_map_setEntry (m : List (String × List PendingRev)) (k : String)
    (v : List PendingRev) :
    ((m.map (fun p => if p.1 == k then (k, v) else p)).find?
        (fun p => p.1 == k)) =
      if m.any (fun p => p.1 == k) then some (k, v) else none := by
  induction m with
  | nil => simp
  | cons q qs ih =>
      by_cases hq : (q.1 == k) = true
      · rw [List.map_cons, if_pos hq, List.find?_cons_of_pos _ (by simp),
          List.any_cons, hq, Bool.true_or, if_pos rfl]
      · have hq' : (q.1 == k) = false := by simpa using hq
        rw [List.map_cons, if_neg hq, List.find?_cons_of_neg _ (by simp [hq']),
          ih, List.any_cons, hq', Bool.false_or]

theorem lookupAssoc_setAssoc_self (m : List (String × List PendingRev))
    (k : String) (v : List PendingRev) :
    lookupAssoc (setAssoc m k v) k = some v := by
  unfold lookupAssoc setAssoc
  by_cases h : m.any (fun p => p.1 == k) = true
  · rw [if_pos h, find?_map_setEntry, if_pos h]
    rfl
  · rw [if_neg h, List.find?_append]
    have hnone : m.find? (fun p => p.1 == k) = none := by
      rw [List.find?_eq_none]
      intro p hp hpk
      exact h (List.any_eq_true.mpr ⟨p, hp, hpk⟩)
    simp [hnone]

theorem lookupAssoc_setAssoc_other (m : List (String × List PendingRev))
    {k g : String} (v : List PendingRev) (hne : g ≠ k) :
    lookupAssoc (setAssoc m k v) g = lookupAssoc m g := by
  unfold lookupAssoc setAssoc
  by_cases h : m.any (fun p => p.1 == k) = true
  · rw [if_pos h, List.find?_map]
    have hcomp : ((fun p : String × List PendingRev => p.1 == g) ∘
        (fun p => if p.1 == k then (k, v) else p)) =
        (fun p : String × List PendingRev => p.1 == g) := by
      funext p
      by_cases hp : (p.1 == k) = true
      · have : p.1 = k := by simpa using hp
        simp [Function.comp, hp, this, (Ne.symm hne)]
      · simp [Function.comp, hp]
    rw [hcomp]
    cases hfind : m.find? (fun p => p.1 == g) with
    | none => simp
    | some e =>
        have he := List.find?_some hfind
        have hg : e.1 = g := by simpa using he
        have hek : ¬e.1 = k := by simp [hg, hne]
        simp [hfind, hek]
  · rw [if_neg h, List.find?_append]
    have : ([(k, v)].find? (fun p => p.1 == g)) = none := by
      simp [Ne.symm hne]
    rw [this]
    cases m.find? (fun p => p.1 == g) <;> simp

theorem mem_setAssoc {m : List (String × List PendingRev)} {k : String}
    {v : List PendingRev} {p : String × List PendingRev}
    (hp : p ∈ setAssoc m k v) : p.2 = v ∨ p ∈ m := by
  unfold setAssoc at hp
  by_cases h : m.any (fun q => q.1 == k) = true
  · rw [if_pos h, List.mem_map] at hp
    obtain ⟨q, hq, hqe⟩ := hp
    by_cases hqk : (q.1 == k) = true
    · left
      rw [if_pos hqk] at hqe
      rw [← hqe]
    · right
      rw [if_neg hqk] at hqe
      rw [← hqe]
      exact hq
  · rw [if_neg h, List.mem_append] at hp
    rcases hp with hp | hp
    · right; exact hp
    · left
      simp only [List.mem_singleton] at hp
      rw [hp]

/-! Membership characterization of the pending-revision join. -/

theorem mem_insertDesc {x r : PendingRev} {l : List PendingRev} :
    x ∈ insertDesc r l ↔ x = r ∨ x ∈ l := by
  induction l with
  | nil => simp [insertDesc]
  | cons y ys ih =>
      simp only [insertDesc]
      by_cases h : r.created_on ≤ y.created_on
      · rw [if_pos h]
        constructor
        · intro hx
          rcases List.mem_cons.mp hx with hx | hx
          · exact Or.inr (List.mem_cons.mpr (Or.inl hx))
          · rcases ih.mp hx with hx | hx
            · exact Or.inl hx
            · exact Or.inr (List.mem_cons.mpr (Or.inr hx))
        · intro hx
          rcases hx with hx | hx
          · exact List.mem_cons.mpr (Or.inr (ih.mpr (Or.inl hx)))
          · rcases List.mem_cons.mp hx with hx | hx
            · exact List.mem_cons.mpr (Or.inl hx)
            · exact List.mem_cons.mpr (Or.inr (ih.mpr (Or.inr hx)))
      · rw [if_neg h]
        simp only [List.mem_cons]

theorem mem_sortByCreatedOnDesc {x : PendingRev} {l : List PendingRev} :
    x ∈ sortByCreatedOnDesc l ↔ x ∈ l := by
  induction l with
  | nil => simp [sortByCreatedOnDesc]
  | cons y ys ih =>
      show x ∈ insertDesc y (sortByCreatedOnDesc ys) ↔ _
      rw [mem_insertDesc, ih]
      simp

theorem mem_getPendingRevisions {s : GhostState} {folder : String}
    {pr : PendingRev} :
    pr ∈ getPendingRevisions s folder ↔
      ∃ r ∈ s.ghost_revisions, ∃ c ∈ s.ghost_content,
        r.content_id = some c.id ∧ c.folder = folder ∧ pr = mkPendingRev c r := by
  unfold getPendingRevisions
  rw [mem_sortByCreatedOnDesc]
  simp only [List.mem_flatMap, List.mem_map, List.mem_filter,
    Bool.and_eq_true, beq_iff_eq]
  constructor
  · rintro ⟨r, hr, c, ⟨hc, hcid, hcf⟩, hpr⟩
    exact ⟨r, hr, c, hc, hcid, hcf, hpr.symm⟩
  · rintro ⟨r, hr, c, hc, hcid, hcf, hpr⟩
    exact ⟨r, hr, c, ⟨hc, hcid, hcf⟩, hpr.symm⟩

theorem pendingRev_id_lt {s : GhostState} {folder : String} {pr : PendingRev}
    (hwf : WellFormed s) (hpr : pr ∈ getPendingRevisions s folder) :
    pr.id < s.nextRevisionId := by
  rw [mem_getPendingRevisions] at hpr
  obtain ⟨r, hr, c, _, _, _, hpr⟩ := hpr
  rw [hpr]
  exact hwf.2.2.2.1 r hr

/-! Lemmas about `contentUpsert`. -/

theorem contentUpsert_frame (s : GhostState) (folder file : String)
    (v : Option String) :
    (contentUpsert s folder file v).ghost_revisions = s.ghost_revisions ∧
    (contentUpsert s folder file v).pendingByFolder = s.pendingByFolder ∧
    (contentUpsert s folder file v).trackedFolders = s.trackedFolders ∧
    (contentUpsert s folder file v).nextRevisionId = s.nextRevisionId ∧
    (contentUpsert s folder file v).now = s.now := by
  cases h : findRow s folder file <;> simp [contentUpsert, h]

theorem contentUpsert_key_fields (s : GhostState) (folder file : String)
    (v : Option String) {c : ContentRow}
    (hc : c ∈ (contentUpsert s folder file v).ghost_content) :
    (∃ c₀ ∈ s.ghost_content, c₀.folder = c.folder ∧ c₀.file = c.file ∧
      c₀.id = c.id ∧ c₀.deleted = c.deleted) ∨
    (c.folder = folder ∧ c.file = file ∧ c.id = s.nextContentId ∧
      c.deleted = false) := by
  cases h : findRow s folder file with
  | some row =>
      simp only [contentUpsert, h, List.mem_map] at hc
      obtain ⟨c₀, hc₀, hce⟩ := hc
      left
      refine ⟨c₀, hc₀, ?_⟩
      by_cases hid : (c₀.id == row.id) = true
      · rw [if_pos hid] at hce
        rw [← hce]
        exact ⟨rfl, rfl, rfl, rfl⟩
      · rw [if_neg hid] at hce
        rw [← hce]
        exact ⟨rfl, rfl, rfl, rfl⟩
  | none =>
      simp only [contentUpsert, h, List.mem_append, List.mem_singleton] at hc
      rcases hc with hc | hc
      · left
        exact ⟨c, hc, rfl, rfl, rfl, rfl⟩
      · right
        rw [hc]
        exact ⟨rfl, rfl, rfl, rfl⟩

theorem update_map_id (l : List ContentRow) (rid : Nat) (v : Option String) :
    (l.map (fun c =>
        if c.id == rid then { c with content := v } else c)).map
        (fun c => c.id) = l.map (fun c => c.id) := by
  rw [List.map_map]
  apply List.map_congr_left
  intro c _
  by_cases hid : c.id = rid
  · simp [hid]
  · simp [hid]

theorem update_map_key (l : List ContentRow) (rid : Nat) (v : Option String) :
    (l.map (fun c =>
        if c.id == rid then { c with content := v } else c)).map
        (fun c => (c.folder, c.file)) =
      l.map (fun c => (c.folder, c.file)) := by
  rw [List.map_map]
  apply List.map_congr_left
  intro c _
  by_cases hid : c.id = rid
  · simp [hid]
  · simp [hid]

theorem contentUpsert_wf {s : GhostState} (folder file : String)
    (v : Option String) (hwf : WellFormed s) :
    WellFormed (contentUpsert s folder file v) := by
  obtain ⟨hids, hbound, hkeys, hrev, hpend⟩ := hwf
  cases h : findRow s folder file with
  | some row =>
      simp only [contentUpsert, h]
      refine ⟨?_, ?_, ?_, hrev, hpend⟩
      · show ((s.ghost_content.map (fun c =>
            if c.id == row.id then { c with content := v } else c)).map
            (fun c => c.id)).Nodup
        rw [update_map_id]
        exact hids
      · intro c hc
        simp only [] at hc ⊢
        rw [List.mem_map] at hc
        obtain ⟨c₀, hc₀, hce⟩ := hc
        by_cases hid : (c₀.id == row.id) = true
        · rw [if_pos hid] at hce
          rw [← hce]
          exact hbound c₀ hc₀
        · rw [if_neg hid] at hce
          rw [← hce]
          exact hbound c₀ hc₀
      · show ((s.ghost_content.map (fun c =>
            if c.id == row.id then { c with content := v } else c)).map
            (fun c => (c.folder, c.file))).Nodup
        rw [update_map_key]
        exact hkeys
  | none =>
      simp only [contentUpsert, h]
      refine ⟨?_, ?_, ?_, hrev, hpend⟩
      · show ((s.ghost_content ++
            [({ id := s.nextContentId, folder := folder, file := file,
                content := v, deleted := false } : ContentRow)]).map
            (fun c => c.id)).Nodup
        rw [List.map_append, List.nodup_append]
        refine ⟨hids, by simp, ?_⟩
        intro a ha hb
        simp only [List.map_cons, List.map_nil, List.mem_singleton] at hb
        rw [List.mem_map] at ha
        obtain ⟨c₀, hc₀, hca⟩ := ha
        have := hbound c₀ hc₀
        omega
      · intro c hc
        simp only [] at hc ⊢
        rw [List.mem_append, List.mem_singleton] at hc
        rcases hc with hc | hc
        · have := hbound c hc
          omega
        · rw [hc]
          simp
      · show ((s.ghost_content ++
            [({ id := s.nextContentId, folder := folder, file := file,
                content := v, deleted := false } : ContentRow)]).map
            (fun c => (c.folder, c.file))).Nodup
        rw [List.map_append, List.nodup_append]
        refine ⟨hkeys, by simp, ?_⟩
        intro a ha hb
        simp only [List.map_cons, List.map_nil, List.mem_singleton] at hb
        rw [List.mem_map] at ha
        obtain ⟨c₀, hc₀, hca⟩ := ha
        rw [findRow_eq_none_iff] at h
        apply h c₀ hc₀
        rw [hb] at hca
        exact ⟨congrArg Prod.fst hca, congrArg Prod.snd hca⟩

theorem contentUpsert_content_at_key {s : GhostState} {folder file : String}
    {v : Option String} (hwf : WellFormed s) :
    ∀ c ∈ (contentUpsert s folder file v).ghost_content,
      c.folder = folder → c.file = file → c.content = v := by
  intro c hc hcf hcfi
  cases h : findRow s folder file with
  | some row =>
      obtain ⟨hrowm, hrowf, hrowfi⟩ := findRow_eq_some_mem h
      simp only [contentUpsert, h, List.mem_map] at hc
      obtain ⟨c₀, hc₀, hce⟩ := hc
      by_cases hid : (c₀.id == row.id) = true
      · rw [if_pos hid] at hce
        rw [← hce]
      · rw [if_neg hid] at hce
        rw [← hce] at hcf hcfi
        have : c₀ = row := key_unique hwf hc₀ hrowm
          (by rw [hcf, hrowf]) (by rw [hcfi, hrowfi])
        rw [this] at hid
        simp at hid
  | none =>
      simp only [contentUpsert, h, List.mem_append, List.mem_singleton] at hc
      rcases hc with hc | hc
      · rw [findRow_eq_none_iff] at h
        exact absurd ⟨hcf, hcfi⟩ (h c hc)
      · rw [hc]

theorem contentUpsert_key_present (s : GhostState) (folder file : String)
    (v : Option String) :
    ∃ c ∈ (contentUpsert s folder file v).ghost_content,
      c.folder = folder ∧ c.file = file := by
  cases h : findRow s folder file with
  | some row =>
      obtain ⟨hrowm, hrowf, hrowfi⟩ := findRow_eq_some_mem h
      simp only [contentUpsert, h]
      by_cases hid : (row.id == row.id) = true
      · refine ⟨{ row with content := v }, ?_, hrowf, hrowfi⟩
        rw [List.mem_map]
        exact ⟨row, hrowm, by rw [if_pos hid]⟩
      · simp at hid
  | none =>
      simp only [contentUpsert, h]
      refine ⟨({ id := s.nextContentId, folder := folder, file := file,
                 content := v, deleted := false } : ContentRow), ?_, rfl, rfl⟩
      simp

theorem contentUpsert_findRow {s : GhostState} (folder file : String)
    (v : Option String) (hwf : WellFormed s) :
    ∃ c, findRow (contentUpsert s folder file v) folder file = some c ∧
      c.content = v ∧ c.folder = folder ∧ c.file = file := by
  obtain ⟨c, hc, hcf, hcfi⟩ := contentUpsert_key_present s folder file v
  obtain ⟨d, hd⟩ := findRow_isSome_of_mem hc hcf hcfi
  obtain ⟨hdm, hdf, hdfi⟩ := findRow_eq_some_mem hd
  exact ⟨d, hd, contentUpsert_content_at_key hwf d hdm hdf hdfi, hdf, hdfi⟩

theorem contentUpsert_mem_of_other_key {s : GhostState} {folder file : String}
    {v : Option String} (hwf : WellFormed s) {c : ContentRow}
    (hkey : ¬(c.folder = folder ∧ c.file = file)) :
    c ∈ (contentUpsert s folder file v).ghost_content ↔
      c ∈ s.ghost_content := by
  cases h : findRow s folder file with
  | some row =>
      obtain ⟨hrowm, hrowf, hrowfi⟩ := findRow_eq_some_mem h
      simp only [contentUpsert, h, List.mem_map]
      constructor
      · rintro ⟨c₀, hc₀, hce⟩
        by_cases hid : (c₀.id == row.id) = true
        · have hideq : c₀.id = row.id := by simpa using hid
          have : c₀ = row := id_unique hwf hc₀ hrowm hideq
          rw [if_pos hid, this] at hce
          rw [← hce] at hkey
          exact absurd ⟨hrowf, hrowfi⟩ hkey
        · rw [if_neg hid] at hce
          rw [← hce]
          exact hc₀
      · intro hc
        refine ⟨c, hc, ?_⟩
        have hne : ¬c.id = row.id := by
          intro hideq
          have : c = row := id_unique hwf hc hrowm hideq
          rw [this] at hkey
          exact hkey ⟨hrowf, hrowfi⟩
        rw [if_neg (by simpa using hne)]
  | none =>
      simp only [contentUpsert, h, List.mem_append, List.mem_singleton]
      constructor
      · rintro (hc | hc)
        · exact hc
        · rw [hc] at hkey
          exact absurd ⟨rfl, rfl⟩ hkey
      · exact Or.inl

theorem contentUpsert_fresh {s : GhostState} {folder file : String}
    (v : Option String) (h : findRow s folder file = none) :
    (contentUpsert s folder file v).ghost_content =
      s.ghost_content ++
        [{ id := s.nextContentId, folder := folder, file := file,
           content := v, deleted := false }] ∧
    (contentUpsert s folder file v).nextContentId = s.nextContentId + 1 := by
  simp [contentUpsert, h]

/-! Frame and preservation lemmas for `insertRevision` and
`updatePendingForFolder`. -/

theorem insertRevision_frame (s : GhostState) (cid : Option Nat)
    (tok : String) :
    (insertRevision s cid tok).ghost_content = s.ghost_content ∧
    (insertRevision s cid tok).pendingByFolder = s.pendingByFolder ∧
    (insertRevision s cid tok).trackedFolders = s.trackedFolders ∧
    (insertRevision s cid tok).nextContentId = s.nextContentId ∧
    (insertRevision s cid tok).ghost_revisions =
      s.ghost_revisions ++
        [{ id := s.nextRevisionId, content_id := cid, revision := tok,
           created_on := s.now, created_by := "admin" }] := by
  simp [insertRevision]

theorem insertRevision_wf {s : GhostState} (cid : Option Nat) (tok : String)
    (hwf : WellFormed s) : WellFormed (insertRevision s cid tok) := by
  obtain ⟨hids, hbound, hkeys, hrev, hpend⟩ := hwf
  refine ⟨hids, hbound, hkeys, ?_, ?_⟩
  · intro r hr
    simp only [insertRevision] at hr ⊢
    rw [List.mem_append, List.mem_singleton] at hr
    rcases hr with hr | hr
    · have := hrev r hr
      omega
    · rw [hr]
      simp
  · intro p hp pr hpr
    simp only [insertRevision] at hp ⊢
    have := hpend p hp pr hpr
    omega

theorem updatePendingForFolder_frame (s : GhostState) (folder : String) :
    (updatePendingForFolder s folder).ghost_content = s.ghost_content ∧
    (updatePendingForFolder s folder).ghost_revisions = s.ghost_revisions ∧
    (updatePendingForFolder s folder).trackedFolders = s.trackedFolders ∧
    (updatePendingForFolder s folder).nextContentId = s.nextContentId ∧
    (updatePendingForFolder s folder).nextRevisionId = s.nextRevisionId ∧
    (updatePendingForFolder s folder).now = s.now ∧
    (updatePendingForFolder s folder).pendingByFolder =
      setAssoc s.pendingByFolder folder (getPendingRevisions s folder) := by
  simp [updatePendingForFolder]

theorem updatePendingForFolder_wf {s : GhostState} (folder : String)
    (hwf : WellFormed s) : WellFormed (updatePendingForFolder s folder) := by
  obtain ⟨hids, hbound, hkeys, hrev, hpend⟩ := hwf
  refine ⟨hids, hbound, hkeys, hrev, ?_⟩
  intro p hp pr hpr
  simp only [updatePendingForFolder] at hp ⊢
  rcases mem_setAssoc hp with hv | hv
  · rw [hv] at hpr
    exact pendingRev_id_lt ⟨hids, hbound, hkeys, hrev, hpend⟩ hpr
  · exact hpend p hv pr hpr

/-! Helpers for `findLiveRow`, `findRow` congruence, and the pending map. -/

theorem findRow_ghost_content {s t : GhostState}
    (h : s.ghost_content = t.ghost_content) (g f : String) :
    findRow s g f = findRow t g f := by
  unfold findRow
  rw [h]

theorem findLiveRow_eq_some_mem {s : GhostState} {folder file : String}
    {c : ContentRow} (h : findLiveRow s folder file = some c) :
    c ∈ s.ghost_content ∧ c.folder = folder ∧ c.file = file ∧
      c.deleted = false := by
  unfold findLiveRow at h
  rw [List.filter_head?] at h
  have hmem := List.mem_of_find?_eq_some h
  have hp := List.find?_some h
  simp only [Bool.and_eq_true, beq_iff_eq, Bool.not_eq_eq_eq_not,
    Bool.not_true] at hp
  exact ⟨hmem, hp.1.1, hp.1.2, by simpa using hp.2⟩

theorem findLiveRow_eq_none {s : GhostState} {folder file : String}
    (h : ∀ c ∈ s.ghost_content, c.folder = folder → c.file = file →
      c.deleted = true) :
    findLiveRow s folder file = none := by
  unfold findLiveRow
  rw [List.filter_head?, List.find?_eq_none]
  intro c hc hp
  simp only [Bool.and_eq_true, beq_iff_eq] at hp
  have := h c hc hp.1.1 hp.1.2
  rw [this] at hp
  simp at hp

theorem lookupAssoc_mem {m : List (String × List PendingRev)} {g : String}
    {pend : List PendingRev} (h : lookupAssoc m g = some pend) :
    ∃ p ∈ m, p.2 = pend := by
  unfold lookupAssoc at h
  cases hf : m.find? (fun p => p.1 == g) with
  | none => rw [hf] at h; cases h
  | some p =>
      rw [hf] at h
      exact ⟨p, List.mem_of_find?_eq_some hf, by simpa using h⟩

/-- Empty store state (fresh database, nothing tracked). -/
def emptyState : GhostState := ⟨[], [], [], [], 0, 0, 0⟩

/-- C8 counterexample state: the only row is a tombstone for
`("flows", "a.json")` (`deleted = true`, `content = null`). -/
def exTombState : GhostState :=
  ⟨[⟨0, "flows", "a.json", none, true⟩], [], [], [], 1, 1, 0⟩

/-- State holding one live row `("flows", "a.json") ↦ "v1"`. -/
def exLiveState : GhostState :=
  ⟨[⟨0, "flows", "a.json", some "v1", false⟩], [], [], [], 1, 0, 0⟩

/-- C8, counterexample: contrary to the claim that `read` fails with
`NotFound` when the row is tombstoned, `readFile` on a tombstoned row
resolves successfully with the stored `null` content — the source's
`readFile` has no `deleted` filter. -/
theorem readFile_tombstone_succeeds :
    readFile exTombState "flows" "a.json" = Except.ok none := rfl

/-- C8, amended: `read(folder, file)` fails (with bluebird's untyped
TypeError rejection, not a typed NotFound) exactly when no ContentStore row
exists for `(folder, file)`; when a row exists — tombstoned or not — it
resolves with the stored content, which is `null` for a tombstone. -/
theorem readFile_spec (s : GhostState) (g f : String) (hwf : WellFormed s) :
    ((¬∃ c ∈ s.ghost_content, c.folder = g ∧ c.file = f) →
      readFile s g f = Except.error GhostError.typeError) ∧
    (∀ c ∈ s.ghost_content, c.folder = g → c.file = f →
      readFile s g f = Except.ok c.content) := by
  constructor
  · intro habs
    have hnone : findRow s g f = none := by
      rw [findRow_eq_none_iff]
      intro c hc hp
      exact habs ⟨c, hc, hp⟩
    simp [readFile, hnone]
  · intro c hc hcf hcfi
    obtain ⟨d, hd⟩ := findRow_isSome_of_mem hc hcf hcfi
    obtain ⟨hdm, hdf, hdfi⟩ := findRow_eq_some_mem hd
    have : d = c := key_unique hwf hdm hc (by rw [hdf, hcf]) (by rw [hdfi, hcfi])
    rw [← this]
    simp [readFile, hd]

/-- C8 witness: applying the amended theorem at a concrete state where no
row exists for the key. -/
theorem readFile_spec_witness :
    readFile exTombState "flows" "b.json" =
      Except.error GhostError.typeError :=
  (readFile_spec exTombState "flows" "b.json" (by decide)).1 (by decide)

/-- C6: `softDelete` on a key whose rows are all absent or tombstoned
throws the NotFound error, leaves the whole state (in particular the
revision log) unchanged, and appends no RevisionEntry. -/
theorem deleteFile_absent_or_tombstoned (s : GhostState)
    (folder file tok : String) (txFails : Bool)
    (habs : ∀ c ∈ s.ghost_content, c.folder = folder → c.file = file →
      c.deleted = true) :
    deleteFile s folder file tok txFails =
      (s, Except.error GhostError.notFound) ∧
    (deleteFile s folder file tok txFails).1.ghost_revisions =
      s.ghost_revisions := by
  have hnone := findLiveRow_eq_none habs
  constructor
  · simp [deleteFile, hnone]
  · simp [deleteFile, hnone]

/-- C6 witness: the theorem applied to the tombstone-only state. -/
theorem deleteFile_absent_or_tombstoned_witness :
    deleteFile exTombState "flows" "a.json" "tok1" false =
      (exTombState, Except.error GhostError.notFound) :=
  (deleteFile_absent_or_tombstoned exTombState "flows" "a.json" "tok1" false
    (by decide)).1

/-- C5: a failure inside the content-update/revision-append transaction of
`recordRevision` or `deleteFile` is logged and swallowed: the transaction's
work is rolled back, yet both calls still resolve successfully, so no error
of any kind reaches the caller — refuting the claim that the failure is
surfaced as a typed error. -/
theorem transactionFailure_swallowed (s₁ s₂ : GhostState)
    (g₁ f₁ c₁ t₁ g₂ f₂ t₂ : String)
    (h1 : ¬(findRow s₁ g₁ f₁).map (fun c => c.content) = some (some c₁))
    (h2 : findLiveRow s₂ g₂ f₂ ≠ none) :
    recordRevision s₁ g₁ f₁ c₁ t₁ true = (s₁, Except.ok ()) ∧
    deleteFile s₂ g₂ f₂ t₂ true = (s₂, Except.ok ()) := by
  constructor
  · simp [recordRevision, h1]
  · cases hrow : findLiveRow s₂ g₂ f₂ with
    | none => exact absurd hrow h2
    | some row => simp [deleteFile, hrow]

/-- C5 witness: a fresh write on an empty store and a delete of the sole
live row, both with the transaction failing, each resolve successfully. -/
theorem transactionFailure_swallowed_witness :
    recordRevision emptyState "flows" "a.json" "v1" "tokA" true =
      (emptyState, Except.ok ()) ∧
    deleteFile exLiveState "flows" "a.json" "tokB" true =
      (exLiveState, Except.ok ()) :=
  transactionFailure_swallowed emptyState exLiveState
    "flows" "a.json" "v1" "tokA" "flows" "a.json" "tokB"
    (by decide) (by decide)

/-! The effect of a non-no-op `recordRevision` call, component by
component. -/

theorem recordRevision_noop {s : GhostState} {folder file content tok : String}
    {tf : Bool}
    (h : (findRow s folder file).map (fun c => c.content) =
      some (some content)) :
    recordRevision s folder file content tok tf = (s, Except.ok ()) := by
  simp [recordRevision, h]

theorem recordRevision_result {s : GhostState} {folder file content tok : String}
    (hnop : ¬(findRow s folder file).map (fun c => c.content) =
      some (some content)) :
    recordRevision s folder file content tok false =
      (updatePendingForFolder
        (insertRevision (contentUpsert s folder file (some content))
          ((findRow s folder file).map (fun c => c.id)) tok) folder,
       Except.ok ()) := by
  simp [recordRevision, hnop]

theorem recordRevision_state {s : GhostState}
    {folder file content : String} (tok : String)
    (hnop : ¬(findRow s folder file).map (fun c => c.content) =
      some (some content)) :
    (recordRevision s folder file content tok false).1.ghost_content =
      (contentUpsert s folder file (some content)).ghost_content ∧
    (recordRevision s folder file content tok false).1.ghost_revisions =
      s.ghost_revisions ++
        [⟨s.nextRevisionId, (findRow s folder file).map (fun c => c.id),
          tok, s.now, "admin"⟩] ∧
    (recordRevision s folder file content tok false).1.pendingByFolder =
      setAssoc s.pendingByFolder folder
        (getPendingRevisions
          (insertRevision (contentUpsert s folder file (some content))
            ((findRow s folder file).map (fun c => c.id)) tok) folder) ∧
    (recordRevision s folder file content tok false).2 = Except.ok () := by
  have hf := contentUpsert_frame s folder file (some content)
  rw [recordRevision_result hnop]
  refine ⟨?_, ?_, ?_, rfl⟩
  · rw [(updatePendingForFolder_frame _ _).1, (insertRevision_frame _ _ _).1]
  · rw [(updatePendingForFolder_frame _ _).2.1,
      (insertRevision_frame _ _ _).2.2.2.2, hf.1, hf.2.2.2.1, hf.2.2.2.2]
  · rw [(updatePendingForFolder_frame _ _).2.2.2.2.2.2,
      (insertRevision_frame _ _ _).2.1, hf.2.1]

/-- C3: after a successful `recordRevision(folder, file, content)` (no
injected transaction failure), a subsequent `read(folder, file)` returns
exactly that content. -/
theorem recordRevision_then_read (s : GhostState)
    (folder file content tok : String) (hwf : WellFormed s) :
    readFile (recordRevision s folder file content tok false).1 folder file =
      Except.ok (some content) := by
  by_cases hnop : (findRow s folder file).map (fun c => c.content) =
      some (some content)
  · have hres : (recordRevision s folder file content tok false).1 = s := by
      simp [recordRevision, hnop]
    rw [hres]
    cases hfr : findRow s folder file with
    | none => rw [hfr] at hnop; cases hnop
    | some row =>
        rw [hfr] at hnop
        have : row.content = some content := by simpa using hnop
        simp [readFile, hfr, this]
  · obtain ⟨c, hc, hcv, hcf, hcfi⟩ :=
      contentUpsert_findRow folder file (some content) hwf
    have hfr : findRow (recordRevision s folder file content tok false).1
        folder file = some c := by
      rw [findRow_ghost_content (recordRevision_state tok hnop).1]
      exact hc
    simp [readFile, hfr, hcv]

/-- C3 witness: writing `"v1"` into an empty store then reading it back. -/
theorem recordRevision_then_read_witness :
    readFile (recordRevision emptyState "flows" "a.json" "v1" "tokA" false).1
        "flows" "a.json" = Except.ok (some "v1") :=
  recordRevision_then_read emptyState "flows" "a.json" "v1" "tokA" (by decide)

/-- C4: `recordRevision` with content byte-identical to the stored content
is a no-op (state unchanged, success); calling it twice in a row with the
same content leaves the second call a no-op, and across the two calls at
most one RevisionEntry is appended — exactly one when the first call found
different (or no) stored content. -/
theorem recordRevision_idempotent (s : GhostState)
    (folder file content tok1 tok2 : String) (hwf : WellFormed s) :
    ((findRow s folder file).map (fun c => c.content) = some (some content) →
      recordRevision s folder file content tok1 false =
        (s, Except.ok ())) ∧
    (recordRevision (recordRevision s folder file content tok1 false).1
        folder file content tok2 false =
      ((recordRevision s folder file content tok1 false).1,
        Except.ok ())) ∧
    ((recordRevision s folder file content tok1 false).1.ghost_revisions.length ≤
      s.ghost_revisions.length + 1) ∧
    (¬(findRow s folder file).map (fun c => c.content) = some (some content) →
      (recordRevision s folder file content tok1 false).1.ghost_revisions.length =
        s.ghost_revisions.length + 1) := by
  by_cases hnop : (findRow s folder file).map (fun c => c.content) =
      some (some content)
  · have hres : recordRevision s folder file content tok1 false =
        (s, Except.ok ()) := recordRevision_noop hnop
    refine ⟨fun _ => hres, ?_, ?_, fun h => absurd hnop h⟩
    · rw [hres]
      exact recordRevision_noop hnop
    · rw [hres]
      show s.ghost_revisions.length ≤ s.ghost_revisions.length + 1
      omega
  · obtain ⟨hgc, hgr, _, _⟩ :=
      recordRevision_state tok1 hnop
    obtain ⟨c, hc, hcv, hcf, hcfi⟩ :=
      contentUpsert_findRow folder file (some content) hwf
    have hfr : findRow (recordRevision s folder file content tok1 false).1
        folder file = some c := by
      rw [findRow_ghost_content hgc]
      exact hc
    have hcond : (findRow (recordRevision s folder file content tok1 false).1
        folder file).map (fun c => c.content) = some (some content) := by
      rw [hfr]
      simp [hcv]
    refine ⟨fun h => absurd h hnop, ?_, ?_, fun _ => ?_⟩
    · exact recordRevision_noop hcond
    · rw [hgr]
      simp
    · rw [hgr]
      simp

/-- C4 witness: two identical writes from the empty store append exactly
one revision entry and the second call is a no-op. -/
theorem recordRevision_idempotent_witness :
    recordRevision (recordRevision emptyState "flows" "a.json" "v1" "t1"
        false).1 "flows" "a.json" "v1" "t2" false =
      ((recordRevision emptyState "flows" "a.json" "v1" "t1" false).1,
        Except.ok ()) ∧
    (recordRevision emptyState "flows" "a.json" "v1" "t1"
        false).1.ghost_revisions.length =
      emptyState.ghost_revisions.length + 1 :=
  ⟨(recordRevision_idempotent emptyState "flows" "a.json" "v1" "t1" "t2"
      (by decide)).2.1,
   (recordRevision_idempotent emptyState "flows" "a.json" "v1" "t1" "t2"
      (by decide)).2.2.2 (by decide)⟩

/-- C7: after a successful `softDelete(folder, file)`, no `list(folder,
suffix)` result contains `file` for any suffix filter, even though the row
is still present as a tombstone (`deleted = true`, `content = null`). -/
theorem softDelete_excluded_from_listing (s s' : GhostState)
    (folder file tok : String) (hwf : WellFormed s)
    (hsucc : deleteFile s folder file tok false = (s', Except.ok ())) :
    (∀ suffix, file ∉ directoryListing s' folder suffix) ∧
    (∃ c ∈ s'.ghost_content, c.folder = folder ∧ c.file = file ∧
      c.deleted = true ∧ c.content = none) := by
  cases hrow : findLiveRow s folder file with
  | none => simp [deleteFile, hrow] at hsucc
  | some row =>
      obtain ⟨hrm, hrf, hrfi, hrd⟩ := findLiveRow_eq_some_mem hrow
      have hs' : updatePendingForFolder
          (insertRevision
            ({ s with ghost_content := s.ghost_content.map (fun c =>
                if c.id == row.id then
                  { c with deleted := true, content := none }
                else c) })
            (some row.id) tok) folder = s' := by
        have : (deleteFile s folder file tok false).1 = s' := by
          rw [hsucc]
        rw [← this]
        simp [deleteFile, hrow]
      have hgc : s'.ghost_content = s.ghost_content.map (fun c =>
          if c.id == row.id then { c with deleted := true, content := none }
          else c) := by
        rw [← hs', (updatePendingForFolder_frame _ _).1,
          (insertRevision_frame _ _ _).1]
      constructor
      · intro suffix hmem
        unfold directoryListing at hmem
        rw [List.mem_map] at hmem
        obtain ⟨c, hcf, hce⟩ := hmem
        rw [List.mem_filter] at hcf
        obtain ⟨hcm, hcp⟩ := hcf
        simp only [Bool.and_eq_true, beq_iff_eq, Bool.not_eq_eq_eq_not,
          Bool.not_true] at hcp
        rw [hgc, List.mem_map] at hcm
        obtain ⟨c₀, hc₀, hc₀e⟩ := hcm
        by_cases hid : (c₀.id == row.id) = true
        · rw [if_pos hid] at hc₀e
          rw [← hc₀e] at hcp
          simp at hcp
        · rw [if_neg hid] at hc₀e
          rw [← hc₀e] at hcp hce
          have : c₀ = row := key_unique hwf hc₀ hrm
            (by rw [hcp.1.1, hrf]) (by rw [hce, hrfi])
          rw [this] at hid
          simp at hid
      · refine ⟨{ row with deleted := true, content := none }, ?_, hrf,
          hrfi, rfl, rfl⟩
        rw [hgc, List.mem_map]
        refine ⟨row, hrm, ?_⟩
        rw [if_pos (by simp)]

/-- C7 witness: deleting the sole live row of `exLiveState` hides it from
every listing while its tombstone remains. -/
theorem softDelete_excluded_from_listing_witness :
    "a.json" ∉ directoryListing
      (deleteFile exLiveState "flows" "a.json" "tokB" false).1 "flows" "" :=
  (softDelete_excluded_from_listing exLiveState
    (deleteFile exLiveState "flows" "a.json" "tokB" false).1
    "flows" "a.json" "tokB" (by decide) (by decide)).1 ""

theorem getPendingRevisions_congr {s t : GhostState}
    (hc : s.ghost_content = t.ghost_content)
    (hr : s.ghost_revisions = t.ghost_revisions) (g : String) :
    getPendingRevisions s g = getPendingRevisions t g := by
  unfold getPendingRevisions
  rw [hc, hr]

/-- C9: the known-revisions manifest is parsed one token per line with
blank lines and `#`-comment lines ignored; a missing manifest file (ENOENT)
is treated exactly like an empty manifest and registration proceeds; any
other manifest read failure makes `addRootFolder` fail without touching the
tables or the pending map. -/
theorem manifest_handling (s : GhostState) (folder content : String)
    (l : List (String × String)) :
    (∀ tok, tok ∈ parseManifest content ↔
      ∃ line ∈ linesOf (trimString content), trimString line = tok ∧
        ¬tok = "" ∧ ¬startsWithHash tok) ∧
    (parseManifest "r1\n\n# note\n r2 \n" = ["r1", "r2"]) ∧
    (addRootFolder s folder FsRead.enoent l =
      addRootFolder s folder (FsRead.ok "") l) ∧
    ((addRootFolder s folder FsRead.ioErr l).2 =
      Except.error GhostError.manifestReadFailure ∧
     (addRootFolder s folder FsRead.ioErr l).1.ghost_content =
       s.ghost_content ∧
     (addRootFolder s folder FsRead.ioErr l).1.ghost_revisions =
       s.ghost_revisions ∧
     (addRootFolder s folder FsRead.ioErr l).1.pendingByFolder =
       s.pendingByFolder) := by
  refine ⟨?_, by decide, ?_, ?_, ?_, ?_, ?_⟩
  · intro tok
    unfold parseManifest
    rw [List.mem_filter, List.mem_map]
    constructor
    · rintro ⟨⟨line, hline, hlt⟩, hp⟩
      simp only [Bool.and_eq_true, Bool.not_eq_true'] at hp
      exact ⟨line, hline, hlt, by simpa using hp.1, by simpa using hp.2⟩
    · rintro ⟨line, hline, hlt, hne, hns⟩
      refine ⟨⟨line, hline, hlt⟩, ?_⟩
      simp only [Bool.and_eq_true, Bool.not_eq_true']
      exact ⟨by simpa using hne, by simpa using hns⟩
  · have htok : manifestTokens FsRead.enoent =
        manifestTokens (FsRead.ok "") := by decide
    simp only [addRootFolder]
    rw [htok]
  · simp [addRootFolder]
  · simp [addRootFolder]
  · simp [addRootFolder]
  · simp [addRootFolder]

/-- C10: a `recordRevision` call on a key with no existing ContentStore row
appends a RevisionEntry whose `content_id` is NULL (the id was read before
the upsert), and that orphaned entry never shows up in the pending-revision
join for any folder, nor in the in-memory pending map that `getPending` and
`getPendingWithContent` are built from. -/
theorem recordRevision_orphan_revision (s : GhostState)
    (folder file content tok : String) (hwf : WellFormed s)
    (habs : findRow s folder file = none) :
    ∃ rv : RevisionRow,
      (recordRevision s folder file content tok false).1.ghost_revisions =
        s.ghost_revisions ++ [rv] ∧
      rv.content_id = none ∧ rv.revision = tok ∧
      (∀ g pr, pr ∈ getPendingRevisions
          (recordRevision s folder file content tok false).1 g →
        pr.id ≠ rv.id) ∧
      (∀ g pend, lookupAssoc
          (recordRevision s folder file content tok false).1.pendingByFolder
            g = some pend →
        ∀ pr ∈ pend, pr.id ≠ rv.id) := by
  have hnop : ¬(findRow s folder file).map (fun c => c.content) =
      some (some content) := by
    rw [habs]
    simp
  obtain ⟨hgc, hgr, hpb, _⟩ := recordRevision_state tok hnop
  rw [habs] at hgr hpb
  simp only [Option.map_none'] at hgr hpb
  refine ⟨⟨s.nextRevisionId, none, tok, s.now, "admin"⟩, hgr, rfl, rfl,
    ?_, ?_⟩
  all_goals
    have hmain : ∀ g pr, pr ∈ getPendingRevisions
        (recordRevision s folder file content tok false).1 g →
        pr.id ≠ s.nextRevisionId := by
      intro g pr hpr heq
      rw [mem_getPendingRevisions] at hpr
      obtain ⟨r, hr, c, hcm, hcid, hcf, hpre⟩ := hpr
      rw [hgr, List.mem_append, List.mem_singleton] at hr
      have hprid : pr.id = r.id := by rw [hpre]; rfl
      rcases hr with hr | hr
      · have := hwf.2.2.2.1 r hr
        omega
      · rw [hr] at hcid
        cases hcid
  · intro g pr hpr
    exact hmain g pr hpr
  · intro g pend hlk pr hpr heq
    simp only [] at heq
    rw [hpb] at hlk
    by_cases hg : g = folder
    · rw [hg, lookupAssoc_setAssoc_self] at hlk
      have hpend : pend = getPendingRevisions
          (insertRevision (contentUpsert s folder file (some content))
            none tok) folder := by
        injection hlk with h
        exact h.symm
      have hf := contentUpsert_frame s folder file (some content)
      have hcongr : getPendingRevisions
          (insertRevision (contentUpsert s folder file (some content))
            none tok) folder =
          getPendingRevisions
            (recordRevision s folder file content tok false).1 folder := by
        apply getPendingRevisions_congr
        · rw [(insertRevision_frame _ _ _).1, hgc]
        · rw [(insertRevision_frame _ _ _).2.2.2.2, hf.1, hf.2.2.2.1,
            hf.2.2.2.2, hgr]
      rw [hpend, hcongr] at hpr
      exact hmain folder pr hpr heq
    · rw [lookupAssoc_setAssoc_other _ _ hg] at hlk
      obtain ⟨p, hp, hpe⟩ := lookupAssoc_mem hlk
      have := hwf.2.2.2.2 p hp pr (by rw [hpe]; exact hpr)
      omega

/-- C10 witness: a fresh write into the empty store produces the orphan
revision entry. -/
theorem recordRevision_orphan_revision_witness :
    ∃ rv : RevisionRow,
      (recordRevision emptyState "flows" "a.json" "v1" "t1"
          false).1.ghost_revisions =
        emptyState.ghost_revisions ++ [rv] ∧
      rv.content_id = none ∧ rv.revision = "t1" ∧
      (∀ g pr, pr ∈ getPendingRevisions
          (recordRevision emptyState "flows" "a.json" "v1" "t1" false).1 g →
        pr.id ≠ rv.id) ∧
      (∀ g pend, lookupAssoc
          (recordRevision emptyState "flows" "a.json" "v1" "t1"
            false).1.pendingByFolder g = some pend →
        ∀ pr ∈ pend, pr.id ≠ rv.id) :=
  recordRevision_orphan_revision emptyState "flows" "a.json" "v1" "t1"
    (by decide) (by decide)

/-! The pending branch of reconciliation. -/

theorem addRootFolderCore_pending (s : GhostState) (folder : String)
    (known : List String) (l : List (String × String))
    (hne : ¬((getPendingRevisions s folder).filter
      (fun r => !known.contains r.revision)) = []) :
    (addRootFolderCore s folder known l).1.ghost_content =
      s.ghost_content ∧
    (addRootFolderCore s folder known l).2 = Except.ok () ∧
    (addRootFolderCore s folder known l).1.pendingByFolder =
      setAssoc s.pendingByFolder folder
        ((getPendingRevisions s folder).filter
          (fun r => !known.contains r.revision)) := by
  have hrem : ((getPendingRevisions s folder).filter
      (fun r => !known.contains r.revision)).isEmpty = false := by
    cases hh : ((getPendingRevisions s folder).filter
        (fun r => !known.contains r.revision)).isEmpty
    · rfl
    · exact absurd (List.isEmpty_iff.mp hh) hne
  by_cases hdel : ((getPendingRevisions s folder).filter
      (fun r => known.contains r.revision)).isEmpty = true
  · refine ⟨?_, ?_, ?_⟩ <;>
      · simp only [addRootFolderCore, hrem, hdel]
        simp
  · refine ⟨?_, ?_, ?_⟩ <;>
      · simp only [addRootFolderCore, hrem, hdel,
          Bool.not_eq_true] at hdel ⊢
        simp [hdel]

theorem addRootFolderCore_tracked_pending (s : GhostState) (folder : String)
    (known : List String) (l : List (String × String))
    (hne : ¬((getPendingRevisions s folder).filter
      (fun r => !known.contains r.revision)) = []) :
    (addRootFolderCore
      { s with trackedFolders := s.trackedFolders ++ [folder] }
      folder known l).1.ghost_content = s.ghost_content ∧
    (addRootFolderCore
      { s with trackedFolders := s.trackedFolders ++ [folder] }
      folder known l).2 = Except.ok () ∧
    (∃ pend, lookupAssoc (addRootFolderCore
        { s with trackedFolders := s.trackedFolders ++ [folder] }
        folder known l).1.pendingByFolder folder = some pend ∧
      ∀ pr, pr ∈ pend ↔ ∃ r ∈ s.ghost_revisions, ∃ c ∈ s.ghost_content,
        r.content_id = some c.id ∧ c.folder = folder ∧
        ¬known.contains r.revision ∧ pr = mkPendingRev c r) := by
  have hs0 : getPendingRevisions
      { s with trackedFolders := s.trackedFolders ++ [folder] } folder =
      getPendingRevisions s folder :=
    getPendingRevisions_congr rfl rfl folder
  have hne0 : ¬((getPendingRevisions
      { s with trackedFolders := s.trackedFolders ++ [folder] }
        folder).filter (fun r => !known.contains r.revision)) = [] := by
    rw [hs0]
    exact hne
  obtain ⟨h1, h2, h3⟩ := addRootFolderCore_pending
    { s with trackedFolders := s.trackedFolders ++ [folder] }
    folder known l hne0
  refine ⟨h1, h2, ?_⟩
  rw [h3, hs0]
  refine ⟨(getPendingRevisions s folder).filter
    (fun r => !known.contains r.revision), lookupAssoc_setAssoc_self _ _ _, ?_⟩
  intro pr
  rw [List.mem_filter, mem_getPendingRevisions]
  constructor
  · rintro ⟨⟨r, hr, c, hc, hcid, hcf, hpr⟩, htok⟩
    refine ⟨r, hr, c, hc, hcid, hcf, ?_, hpr⟩
    have : pr.revision = r.revision := by rw [hpr]; rfl
    rw [Bool.not_eq_true'] at htok
    rw [← this]
    simpa using htok
  · rintro ⟨r, hr, c, hc, hcid, hcf, htok, hpr⟩
    refine ⟨⟨r, hr, c, hc, hcid, hcf, hpr⟩, ?_⟩
    have : pr.revision = r.revision := by rw [hpr]; rfl
    rw [Bool.not_eq_true', this]
    simpa using htok

/-- C1: registering a folder whose pending set — the revision-log entries
joined to the folder's content rows whose token is absent from the
manifest — is non-empty leaves every ContentStore row unchanged (no upsert,
no hard-delete), the registration succeeds, and the folder's in-memory
pending set afterwards is exactly those entries. -/
theorem register_pending_frame (s : GhostState) (folder : String)
    (mf : FsRead) (l : List (String × String)) (hio : mf ≠ FsRead.ioErr)
    (hne : ¬((getPendingRevisions s folder).filter
      (fun r => !(manifestTokens mf).contains r.revision)) = []) :
    (addRootFolder s folder mf l).1.ghost_content = s.ghost_content ∧
    (addRootFolder s folder mf l).2 = Except.ok () ∧
    (∃ pend, lookupAssoc (addRootFolder s folder mf l).1.pendingByFolder
        folder = some pend ∧
      ∀ pr, pr ∈ pend ↔ ∃ r ∈ s.ghost_revisions, ∃ c ∈ s.ghost_content,
        r.content_id = some c.id ∧ c.folder = folder ∧
        ¬(manifestTokens mf).contains r.revision ∧ pr = mkPendingRev c r) := by
  cases mf with
  | ioErr => exact absurd rfl hio
  | enoent =>
      simp only [addRootFolder]
      exact addRootFolderCore_tracked_pending s folder
        (manifestTokens FsRead.enoent) l hne
  | ok c =>
      simp only [addRootFolder]
      exact addRootFolderCore_tracked_pending s folder
        (manifestTokens (FsRead.ok c)) l hne

/-- C1 witness state: one live content row and one pending revision
pointing at it. -/
def exPendingState : GhostState :=
  ⟨[⟨0, "flows", "a.json", some "v1", false⟩],
   [⟨0, some 0, "r1", 0, "admin"⟩], [], [], 1, 1, 1⟩

/-- C1 witness: registering `flows` with a missing manifest while revision
`r1` is pending leaves `ghost_content` untouched. -/
theorem register_pending_frame_witness :
    (addRootFolder exPendingState "flows" FsRead.enoent
      [("a.json", "fs-content")]).1.ghost_content =
      exPendingState.ghost_content :=
  (register_pending_frame exPendingState "flows" FsRead.enoent
    [("a.json", "fs-content")] (by decide) (by decide)).1

/-! The resync branch of reconciliation: fold of upserts, then
hard-delete of unmatched rows. -/

theorem contentUpsert_key_mem_iff {s : GhostState} (hwf : WellFormed s)
    (folder file : String) (v : Option String) (g f : String) :
    (∃ c ∈ (contentUpsert s folder file v).ghost_content,
      c.folder = g ∧ c.file = f) ↔
      ((∃ c ∈ s.ghost_content, c.folder = g ∧ c.file = f) ∨
        (g = folder ∧ f = file)) := by
  constructor
  · rintro ⟨c, hc, hcf, hcfi⟩
    rcases contentUpsert_key_fields s folder file v hc with
      ⟨c₀, hc₀, h1, h2, _, _⟩ | ⟨h1, h2, _, _⟩
    · exact Or.inl ⟨c₀, hc₀, by rw [h1, hcf], by rw [h2, hcfi]⟩
    · exact Or.inr ⟨by rw [← hcf, h1], by rw [← hcfi, h2]⟩
  · rintro (⟨c, hc, hcf, hcfi⟩ | ⟨hg, hf⟩)
    · by_cases hkey : c.folder = folder ∧ c.file = file
      · obtain ⟨d, hd, hdf, hdfi⟩ := contentUpsert_key_present s folder file v
        exact ⟨d, hd, by rw [hdf, ← hkey.1, hcf], by rw [hdfi, ← hkey.2, hcfi]⟩
      · exact ⟨c, (contentUpsert_mem_of_other_key hwf hkey).mpr hc, hcf, hcfi⟩
    · obtain ⟨d, hd, hdf, hdfi⟩ := contentUpsert_key_present s folder file v
      exact ⟨d, hd, by rw [hg]; exact hdf, by rw [hf]; exact hdfi⟩

theorem foldl_upsert_wf (folder : String) (l : List (String × String)) :
    ∀ s : GhostState, WellFormed s →
      WellFormed (l.foldl
        (fun acc p => contentUpsert acc folder p.1 (some p.2)) s) := by
  induction l with
  | nil => exact fun s hwf => hwf
  | cons p rest ih =>
      intro s hwf
      rw [List.foldl_cons]
      exact ih _ (contentUpsert_wf _ _ _ hwf)

theorem foldl_upsert_revisions (folder : String)
    (l : List (String × String)) :
    ∀ s : GhostState,
      (l.foldl (fun acc p => contentUpsert acc folder p.1 (some p.2))
        s).ghost_revisions = s.ghost_revisions := by
  induction l with
  | nil => exact fun s => rfl
  | cons p rest ih =>
      intro s
      rw [List.foldl_cons, ih, (contentUpsert_frame _ _ _ _).1]

theorem foldl_upsert_key_mem (folder : String) (l : List (String × String)) :
    ∀ s : GhostState, WellFormed s → ∀ g f : String,
      ((∃ c ∈ (l.foldl
          (fun acc p => contentUpsert acc folder p.1 (some p.2))
          s).ghost_content, c.folder = g ∧ c.file = f) ↔
        ((∃ c ∈ s.ghost_content, c.folder = g ∧ c.file = f) ∨
          (g = folder ∧ f ∈ l.map (fun p => p.1)))) := by
  induction l with
  | nil => simp
  | cons q rest ih =>
      intro s hwf g f
      rw [List.foldl_cons, ih _ (contentUpsert_wf _ _ _ hwf) g f,
        contentUpsert_key_mem_iff hwf]
      simp only [List.map_cons, List.mem_cons]
      constructor
      · rintro ((hA | hq) | hrest)
        · exact Or.inl hA
        · exact Or.inr ⟨hq.1, Or.inl hq.2⟩
        · exact Or.inr ⟨hrest.1, Or.inr hrest.2⟩
      · rintro (hA | ⟨hg, (hq | hrest)⟩)
        · exact Or.inl (Or.inl hA)
        · exact Or.inl (Or.inr ⟨hg, hq⟩)
        · exact Or.inr ⟨hg, hrest⟩

theorem foldl_upsert_mem_of_other_key (folder : String)
    (l : List (String × String)) :
    ∀ s : GhostState, WellFormed s → ∀ c : ContentRow,
      ¬(c.folder = folder ∧ c.file ∈ l.map (fun p => p.1)) →
      (c ∈ (l.foldl (fun acc p => contentUpsert acc folder p.1 (some p.2))
          s).ghost_content ↔ c ∈ s.ghost_content) := by
  induction l with
  | nil => simp
  | cons q rest ih =>
      intro s hwf c hkey
      rw [List.foldl_cons,
        ih _ (contentUpsert_wf _ _ _ hwf) c
          (fun h => hkey ⟨h.1, by simp [h.2]⟩)]
      exact contentUpsert_mem_of_other_key hwf
        (fun h => hkey ⟨h.1, by simp [h.2]⟩)

theorem foldl_upsert_content (folder : String) (l : List (String × String)) :
    ∀ s : GhostState, WellFormed s → (l.map (fun p => p.1)).Nodup →
      ∀ p ∈ l, ∀ c ∈ (l.foldl
          (fun acc p => contentUpsert acc folder p.1 (some p.2))
          s).ghost_content,
        c.folder = folder → c.file = p.1 → c.content = some p.2 := by
  induction l with
  | nil =>
      intro s _ _ p hp
      cases hp
  | cons q rest ih =>
      intro s hwf hnd p hp c hc hcf hcfi
      rw [List.foldl_cons] at hc
      have hwf1 := contentUpsert_wf folder q.1 (some q.2) hwf
      simp only [List.map_cons, List.nodup_cons] at hnd
      rcases List.mem_cons.mp hp with rfl | hp
      · have hnotin : ¬(c.folder = folder ∧ c.file ∈ rest.map
            (fun p => p.1)) := by
          rintro ⟨_, hmem⟩
          rw [hcfi] at hmem
          exact hnd.1 hmem
        have hcm : c ∈ (contentUpsert s folder p.1
            (some p.2)).ghost_content :=
          (foldl_upsert_mem_of_other_key folder rest _ hwf1 c hnotin).mp hc
        exact contentUpsert_content_at_key hwf c hcm hcf hcfi
      · exact ih _ hwf1 hnd.2 p hp c hc hcf hcfi

theorem addRootFolderCore_resync_eq (s : GhostState) (folder : String)
    (known : List String) (l : List (String × String))
    (hpend : getPendingRevisions s folder = []) :
    addRootFolderCore s folder known l =
      ({ l.foldl (fun acc p => contentUpsert acc folder p.1 (some p.2)) s
          with ghost_content :=
          (l.foldl (fun acc p => contentUpsert acc folder p.1 (some p.2))
            s).ghost_content.filter (fun c =>
              !(c.folder == folder &&
                !(l.map (fun p => p.1)).contains c.file)) },
       Except.ok ()) := by
  simp only [addRootFolderCore, hpend, List.filter_nil]
  rfl

theorem addRootFolderCore_resync (s : GhostState) (folder : String)
    (known : List String) (l : List (String × String)) (hwf : WellFormed s)
    (hnd : (l.map (fun p => p.1)).Nodup)
    (hpend : getPendingRevisions s folder = []) :
    (addRootFolderCore s folder known l).2 = Except.ok () ∧
    (addRootFolderCore s folder known l).1.ghost_revisions =
      s.ghost_revisions ∧
    (∀ f, (∃ c ∈ (addRootFolderCore s folder known l).1.ghost_content,
        c.folder = folder ∧ c.file = f) ↔ f ∈ l.map (fun p => p.1)) ∧
    (∀ p ∈ l, ∀ c ∈ (addRootFolderCore s folder known l).1.ghost_content,
      c.folder = folder → c.file = p.1 → c.content = some p.2) := by
  rw [addRootFolderCore_resync_eq s folder known l hpend]
  refine ⟨rfl, ?_, ?_, ?_⟩
  · exact foldl_upsert_revisions folder l s
  · intro f
    constructor
    · rintro ⟨c, hc, hcf, hcfi⟩
      obtain ⟨hcm, hcp⟩ := List.mem_filter.mp hc
      simp only [hcf, beq_self_eq_true, Bool.true_and, Bool.not_not] at hcp
      rw [← hcfi]
      simpa using hcp
    · intro hf
      obtain ⟨c, hc, hcf, hcfi⟩ :=
        (foldl_upsert_key_mem folder l s hwf folder f).mpr (Or.inr ⟨rfl, hf⟩)
      refine ⟨c, List.mem_filter.mpr ⟨hc, ?_⟩, hcf, hcfi⟩
      simp only [hcf, hcfi, beq_self_eq_true, Bool.true_and, Bool.not_not]
      simpa using hf
  · intro p hp c hc hcf hcfi
    exact foldl_upsert_content folder l s hwf hnd p hp c
      (List.mem_filter.mp hc).1 hcf hcfi

/-- C2: registering a folder with an empty manifest and zero pending
revisions resynchronizes ContentStore from the filesystem: afterwards the
folder's row set is exactly the glob match set, every matched file's row
holds its raw filesystem content, and no RevisionEntry is appended by any
of the resync upserts (the revision log is unchanged). -/
theorem register_resync (s : GhostState) (folder : String) (mf : FsRead)
    (l : List (String × String)) (hwf : WellFormed s)
    (hio : mf ≠ FsRead.ioErr) (hm : manifestTokens mf = [])
    (hnd : (l.map (fun p => p.1)).Nodup)
    (hpend : getPendingRevisions s folder = []) :
    (addRootFolder s folder mf l).2 = Except.ok () ∧
    (addRootFolder s folder mf l).1.ghost_revisions = s.ghost_revisions ∧
    (∀ f, (∃ c ∈ (addRootFolder s folder mf l).1.ghost_content,
        c.folder = folder ∧ c.file = f) ↔ f ∈ l.map (fun p => p.1)) ∧
    (∀ p ∈ l, ∀ c ∈ (addRootFolder s folder mf l).1.ghost_content,
      c.folder = folder → c.file = p.1 → c.content = some p.2) := by
  have hs0wf : WellFormed
      { s with trackedFolders := s.trackedFolders ++ [folder] } := hwf
  have hs0p : getPendingRevisions
      { s with trackedFolders := s.trackedFolders ++ [folder] } folder =
      [] := by
    rw [getPendingRevisions_congr rfl rfl folder]
    exact hpend
  cases mf with
  | ioErr => exact absurd rfl hio
  | enoent =>
      simp only [addRootFolder]
      exact addRootFolderCore_resync _ folder (manifestTokens FsRead.enoent)
        l hs0wf hnd hs0p
  | ok c =>
      simp only [addRootFolder]
      exact addRootFolderCore_resync _ folder
        (manifestTokens (FsRead.ok c)) l hs0wf hnd hs0p

/-- C2 witness: resyncing over a tombstone-only store with no revisions and
a missing manifest succeeds and appends no revision entry. -/
theorem register_resync_witness :
    (addRootFolder exTombState "flows" FsRead.enoent
        [("a.json", "v1"), ("b.json", "v2")]).2 = Except.ok () ∧
    (addRootFolder exTombState "flows" FsRead.enoent
        [("a.json", "v1"), ("b.json", "v2")]).1.ghost_revisions =
      exTombState.ghost_revisions :=
  ⟨(register_resync exTombState "flows" FsRead.enoent
      [("a.json", "v1"), ("b.json", "v2")] (by decide) (by decide)
      (by decide) (by decide) (by decide)).1,
   (register_resync exTombState "flows" FsRead.enoent
      [("a.json", "v1"), ("b.json", "v2")] (by decide) (by decide)
      (by decide) (by decide) (by decide)).2.1⟩
